import Mathlib

/-!
Verification of the Sizing Aggregator of `computeSizing` (src/src/App.tsx).

The embedding is shallow:

* `Size` embeds the TS union type `Size = 'XS' | 'S' | 'M' | 'L' | 'XL' | 'XXL'`.
* `sizingEntries` embeds the record `sizingToWeeks` as an ordered association
  list (`Object.entries` iterates in insertion order); `sizingToWeeks` is the
  corresponding lookup.  JS numbers are modelled by `ℚ` (the table and all
  sums in the program stay exact small rationals).
* `getSizingFromNumberOfWeeks` embeds the threshold mapper: a fold over the
  reversed entry list starting from `XXL`.
* `SizeString` embeds the TS type `SizeString = Size | Size/Size`;
  `computeSizing` embeds the aggregator over validated token lists.
* Strings are modelled as `List Char`; `replaceCommas`, `collapseDoubleSpace`,
  `trimWs`, `splitOnChar` embed `replaceAll(',', ' ')`, `replaceAll('  ', ' ')`
  (a single left-to-right non-overlapping pass, as `String.prototype.replaceAll`
  with a string pattern performs), `trim` and `split(sep)`; `tokenize` chains
  them as line 74 of App.tsx does.
* `isValidToken` / `handleSetSignal` embed the validation of lines 76-90:
  the result is `some (min, max)` on the success path and `none` on the
  `Invalid formatting` path.
-/

inductive Size where
  | XS | S | M | L | XL | XXL
deriving DecidableEq, Repr

open Size

/-- Position of a label in the fixed order XS < S < M < L < XL < XXL. -/
def Size.toIdx : Size → ℕ
  | XS => 0
  | S => 1
  | M => 2
  | L => 3
  | XL => 4
  | XXL => 5

/-- The record `sizingToWeeks` as an ordered list of entries, in insertion
order (the order `Object.entries` iterates). -/
def sizingEntries : List (Size × ℚ) :=
  [(XS, 3/5), (S, 1), (M, 3), (L, 6), (XL, 14), (XXL, 16)]

/-- Lookup in the `sizingToWeeks` record. -/
def sizingToWeeks : Size → ℚ
  | XS => 3/5
  | S => 1
  | M => 3
  | L => 6
  | XL => 14
  | XXL => 16

/-- Threshold mapper (App.tsx lines 53-63): start from `XXL`, walk the entries
in reverse (descending-weight) order, and keep overwriting the result with any
label whose weight is still `≥ numberOfWeeks`. -/
def getSizingFromNumberOfWeeks (numberOfWeeks : ℚ) : Size :=
  sizingEntries.reverse.foldl
    (fun actualSize p => if numberOfWeeks ≤ p.2 then p.1 else actualSize) XXL

/-- Closed form of the threshold mapper: a cascade of threshold tests from the
smallest weight up. -/
lemma getSizing_eq (t : ℚ) :
    getSizingFromNumberOfWeeks t =
      if t ≤ 3/5 then XS
      else if t ≤ 1 then S
      else if t ≤ 3 then M
      else if t ≤ 6 then L
      else if t ≤ 14 then XL
      else XXL := by
  show List.foldl _ XXL _ = _
  simp only [sizingEntries, List.reverse_cons, List.reverse_nil, List.nil_append,
    List.cons_append, List.foldl_cons, List.foldl_nil, ite_self]

/-- A validated token: the TS type `SizeString = Size | Size/Size`. -/
inductive SizeString where
  | single (s : Size)
  | pair (a b : Size)
deriving DecidableEq, Repr

/-- Which label a token contributes to the min side and to the max side
(App.tsx lines 26-35): a single token contributes itself to both sides, a
pair contributes its first member to min and its second member to max. -/
def contribOf : SizeString → Size × Size
  | .single s => (s, s)
  | .pair a b => (a, b)

/-- One loop iteration on the `sizeCount` table: add 1 to the min counter of
the min-side label and 1 to the max counter of the max-side label. -/
def bump (c : Size → ℕ × ℕ) (contrib : Size × Size) : Size → ℕ × ℕ :=
  fun x =>
    ((c x).1 + (if x = contrib.1 then 1 else 0),
     (c x).2 + (if x = contrib.2 then 1 else 0))

/-- The all-zero `sizeCount` table (App.tsx lines 17-24). -/
def initCount : Size → ℕ × ℕ := fun _ => (0, 0)

/-- The `sizeCount` table after the first loop of `computeSizing`. -/
def aggregate (sizes : List SizeString) : Size → ℕ × ℕ :=
  sizes.foldl (fun acc t => bump acc (contribOf t)) initCount

/-- Iteration order of `Object.entries(sizeCount)`: insertion order. -/
def allSizes : List Size := [XS, S, M, L, XL, XXL]

/-- The sum `numberOfWeeksMin` (App.tsx lines 37-45). -/
def weekSumMin (c : Size → ℕ × ℕ) : ℚ :=
  (allSizes.map (fun s => ((c s).1 : ℚ) * sizingToWeeks s)).sum

/-- The sum `numberOfWeeksMax` (App.tsx lines 37-45). -/
def weekSumMax (c : Size → ℕ × ℕ) : ℚ :=
  (allSizes.map (fun s => ((c s).2 : ℚ) * sizingToWeeks s)).sum

/-- The function `computeSizing` (App.tsx lines 16-51) on a validated token list. -/
def computeSizing (sizes : List SizeString) : Size × Size :=
  (getSizingFromNumberOfWeeks (weekSumMin (aggregate sizes)),
   getSizingFromNumberOfWeeks (weekSumMax (aggregate sizes)))

/-- The call `value.replaceAll(',', ' ')`. -/
def replaceCommas (l : List Char) : List Char :=
  l.map (fun c => if c = ',' then ' ' else c)

/-- The call `value.replaceAll('  ', ' ')`: one left-to-right pass replacing each
non-overlapping occurrence of two consecutive spaces by a single space
(`String.prototype.replaceAll` with a plain-string pattern resumes the
search after the matched occurrence and does not rescan the replacement). -/
def collapseDoubleSpace : List Char → List Char
  | ' ' :: ' ' :: rest => ' ' :: collapseDoubleSpace rest
  | c :: rest => c :: collapseDoubleSpace rest
  | [] => []

/-- The call `trim()`: remove whitespace from both ends. -/
def trimWs (l : List Char) : List Char :=
  ((l.dropWhile Char.isWhitespace).reverse.dropWhile Char.isWhitespace).reverse

/-- The call `str.split(sep)` for a one-character separator, with JS semantics: the
empty string yields `[""]` and consecutive separators yield empty fields. -/
def splitOnChar (sep : Char) : List Char → List (List Char)
  | [] => [[]]
  | c :: rest =>
    if c = sep then [] :: splitOnChar sep rest
    else
      match splitOnChar sep rest with
      | [] => [[c]]
      | t :: ts => (c :: t) :: ts

/-- Line 74 of App.tsx:
`value.replaceAll(',', ' ').replaceAll('  ', ' ').trim().split(' ')`. -/
def tokenize (value : List Char) : List (List Char) :=
  splitOnChar ' ' (trimWs (collapseDoubleSpace (replaceCommas value)))

/-- The test `Object.keys(sizingToWeeks).includes(tok)`: read a token as a label. -/
def parseSize (t : List Char) : Option Size :=
  if t = "XS".toList then some XS
  else if t = "S".toList then some S
  else if t = "M".toList then some M
  else if t = "L".toList then some L
  else if t = "XL".toList then some XL
  else if t = "XXL".toList then some XXL
  else none

def isLabel (t : List Char) : Bool := (parseSize t).isSome

/-- Validation applied to each candidate token (App.tsx lines 78-81):
the token is one of the six keys, or every `/`-separated part is. -/
def isValidToken (t : List Char) : Bool :=
  isLabel t || (splitOnChar '/' t).all isLabel

/-- The validation rule exactly as the specification words it, kept for
comparison with the source's `isValidToken`: the token equals one of the six
Label symbols, or it contains exactly one '/' separator and both substrings
around it are valid Label symbols. -/
def specValidToken (t : List Char) : Bool :=
  isLabel t || (t.count '/' == 1 && (splitOnChar '/' t).all isLabel)

/-- The branch on `size.includes('/')` (lines 27-34) together with the
`as Size` casts, reading a raw token back as a structured token; `none`
models a failing cast (never reached on validated input). -/
def parseToken (t : List Char) : Option SizeString :=
  if '/' ∈ t then
    let parts := splitOnChar '/' t
    match parseSize (parts.getD 0 []), parseSize (parts.getD 1 []) with
    | some a, some b => some (.pair a b)
    | _, _ => none
  else (parseSize t).map .single

/-- The handler `handleSetSignal` (App.tsx lines 71-91), restricted to its computational
content: `some result` on the success path, `none` on the
`Invalid formatting` path. -/
def handleSetSignal (value : List Char) : Option (Size × Size) :=
  let sizes := tokenize value
  if sizes.all isValidToken then (sizes.mapM parseToken).map computeSizing
  else none

/-- The result of the threshold scan has weight at least the input, as long
as the input does not exceed the largest weight. -/
lemma getSizing_le (t : ℚ) (h : t ≤ 16) :
    t ≤ sizingToWeeks (getSizingFromNumberOfWeeks t) := by
  rw [getSizing_eq]
  split_ifs with h1 h2 h3 h4 h5 <;> simp only [sizingToWeeks] <;> linarith

/-- The result of the threshold scan is the smallest label whose weight is
at least the input. -/
lemma getSizing_min (t : ℚ) (l : Size) (hl : t ≤ sizingToWeeks l) :
    (getSizingFromNumberOfWeeks t).toIdx ≤ l.toIdx := by
  rw [getSizing_eq]
  split_ifs with h1 h2 h3 h4 h5 <;> cases l <;>
    simp only [sizingToWeeks, Size.toIdx] at hl ⊢ <;>
    first
      | omega
      | (exfalso; linarith)

/-- Above every weight, the scan never overwrites the initial `XXL`. -/
lemma getSizing_gt (t : ℚ) (h : 16 < t) : getSizingFromNumberOfWeeks t = XXL := by
  rw [getSizing_eq]
  split_ifs <;> first | rfl | (exfalso; linarith)

/-- Round trip: mapping a label's own weight through the threshold scan
returns the label. -/
lemma getSizing_weight (l : Size) :
    getSizingFromNumberOfWeeks (sizingToWeeks l) = l := by
  cases l <;> simp only [sizingToWeeks] <;> rw [getSizing_eq] <;> norm_num

/-- On a table holding one min occurrence of `x`, `numberOfWeeksMin` is the
weight of `x`. -/
lemma weekSumMin_single (x y : Size) :
    weekSumMin (bump initCount (x, y)) = sizingToWeeks x := by
  cases x <;> simp +decide [weekSumMin, bump, initCount, allSizes, sizingToWeeks]

/-- On a table holding one max occurrence of `y`, `numberOfWeeksMax` is the
weight of `y`. -/
lemma weekSumMax_single (x y : Size) :
    weekSumMax (bump initCount (x, y)) = sizingToWeeks y := by
  cases y <;> simp +decide [weekSumMax, bump, initCount, allSizes, sizingToWeeks]

/-- C3: for every non-negative input `total`, `getSizingFromNumberOfWeeks`
returns the smallest Label whose weight is `≥ total` (whenever `total` does
not exceed the weight of `XXL`, the result's weight is `≥ total` and its
position is minimal among such labels); above the weight of `XXL` (16) the
result saturates at `XXL`; `total = 0` yields `XS`, `total = 3` yields `M`,
and `total = 16.0001` yields `XXL`. -/
theorem C3_threshold_mapper :
    (∀ t : ℚ, 0 ≤ t →
      (t ≤ sizingToWeeks XXL →
        t ≤ sizingToWeeks (getSizingFromNumberOfWeeks t) ∧
        ∀ l : Size, t ≤ sizingToWeeks l →
          (getSizingFromNumberOfWeeks t).toIdx ≤ l.toIdx) ∧
      (sizingToWeeks XXL < t → getSizingFromNumberOfWeeks t = XXL)) ∧
    getSizingFromNumberOfWeeks 0 = XS ∧
    getSizingFromNumberOfWeeks 3 = M ∧
    getSizingFromNumberOfWeeks (160001/10000) = XXL := by
  refine ⟨fun t _ => ⟨fun hle => ⟨getSizing_le t (by simpa [sizingToWeeks] using hle),
      fun l hl => getSizing_min t l hl⟩,
      fun hgt => getSizing_gt t (by simpa [sizingToWeeks] using hgt)⟩, ?_, ?_, ?_⟩
  · rw [getSizing_eq]; norm_num
  · rw [getSizing_eq]; norm_num
  · rw [getSizing_eq]; norm_num

/-- Witness for C3 at the concrete input `total = 5`. -/
theorem C3_threshold_mapper_witness :
    ((5 : ℚ) ≤ sizingToWeeks XXL →
      (5 : ℚ) ≤ sizingToWeeks (getSizingFromNumberOfWeeks 5) ∧
      ∀ l : Size, (5 : ℚ) ≤ sizingToWeeks l →
        (getSizingFromNumberOfWeeks 5).toIdx ≤ l.toIdx) ∧
    (sizingToWeeks XXL < 5 → getSizingFromNumberOfWeeks 5 = XXL) :=
  C3_threshold_mapper.1 5 (by decide)

/-- C9: the threshold mapper is monotone with respect to the order
XS < S < M < L < XL < XXL. -/
theorem C9_monotone (t1 t2 : ℚ) (h : t1 ≤ t2) :
    (getSizingFromNumberOfWeeks t1).toIdx ≤ (getSizingFromNumberOfWeeks t2).toIdx := by
  rw [getSizing_eq t1, getSizing_eq t2]
  split_ifs <;> simp only [Size.toIdx] <;> first | omega | (exfalso; linarith)

/-- Witness for C9 at the concrete inputs `t1 = 1`, `t2 = 2`. -/
theorem C9_monotone_witness :
    (getSizingFromNumberOfWeeks 1).toIdx ≤ (getSizingFromNumberOfWeeks 2).toIdx :=
  C9_monotone 1 2 (by decide)

/-- C10: the threshold mapper is total on all rational inputs: every input
`≤ 3/5` (in particular every negative input) yields `XS`, and the result is
always one of the six labels. -/
theorem C10_total (t : ℚ) (h : t ≤ 3/5) :
    getSizingFromNumberOfWeeks t = XS ∧
    getSizingFromNumberOfWeeks (-5) = XS ∧
    ∀ u : ℚ, getSizingFromNumberOfWeeks u ∈ allSizes := by
  refine ⟨by rw [getSizing_eq]; exact if_pos h, by rw [getSizing_eq]; norm_num, fun u => ?_⟩
  rw [getSizing_eq]
  split_ifs <;> simp [allSizes]

/-- Witness for C10 at the concrete input `t = 0`. -/
theorem C10_total_witness :
    getSizingFromNumberOfWeeks 0 = XS ∧
    getSizingFromNumberOfWeeks (-5) = XS ∧
    ∀ u : ℚ, getSizingFromNumberOfWeeks u ∈ allSizes :=
  C10_total 0 (by norm_num)

/-- C6: the full aggregation pipeline on the one-token list `[L]` returns
`resultMin = resultMax = L`, for every label `L`. -/
theorem C6_roundtrip (l : Size) : computeSizing [.single l] = (l, l) := by
  show (getSizingFromNumberOfWeeks (weekSumMin (bump initCount (l, l))),
        getSizingFromNumberOfWeeks (weekSumMax (bump initCount (l, l)))) = (l, l)
  rw [weekSumMin_single, weekSumMax_single, getSizing_weight]

/-- One `bump` adds exactly one unit to the total of the min counters. -/
lemma sum_bump_min (c : Size → ℕ × ℕ) (k : Size × Size) :
    (allSizes.map (fun s => (bump c k s).1)).sum =
      (allSizes.map (fun s => (c s).1)).sum + 1 := by
  rcases k with ⟨a, b⟩
  cases a <;> simp +decide [allSizes, bump] <;> omega

/-- One `bump` adds exactly one unit to the total of the max counters. -/
lemma sum_bump_max (c : Size → ℕ × ℕ) (k : Size × Size) :
    (allSizes.map (fun s => (bump c k s).2)).sum =
      (allSizes.map (fun s => (c s).2)).sum + 1 := by
  rcases k with ⟨a, b⟩
  cases b <;> simp +decide [allSizes, bump] <;> omega

/-- Over a whole token list, the min counters gain one unit per token. -/
lemma sum_foldl_min :
    ∀ (ts : List SizeString) (c : Size → ℕ × ℕ),
      (allSizes.map
        (fun s => ((ts.foldl (fun acc t => bump acc (contribOf t)) c) s).1)).sum =
        (allSizes.map (fun s => (c s).1)).sum + ts.length := by
  intro ts
  induction ts with
  | nil => intro c; simp
  | cons t ts ih =>
    intro c
    simp only [List.foldl_cons, List.length_cons]
    rw [ih (bump c (contribOf t)), sum_bump_min]
    omega

/-- Over a whole token list, the max counters gain one unit per token. -/
lemma sum_foldl_max :
    ∀ (ts : List SizeString) (c : Size → ℕ × ℕ),
      (allSizes.map
        (fun s => ((ts.foldl (fun acc t => bump acc (contribOf t)) c) s).2)).sum =
        (allSizes.map (fun s => (c s).2)).sum + ts.length := by
  intro ts
  induction ts with
  | nil => intro c; simp
  | cons t ts ih =>
    intro c
    simp only [List.foldl_cons, List.length_cons]
    rw [ih (bump c (contribOf t)), sum_bump_max]
    omega

/-- C4: a single-label token increments both its min and its max counter, a
pair token increments the min counter of its first member and the max
counter of its second member; on the one-token input `S/M` this gives
`weekSumMin = 1` and `weekSumMax = 3`, hence `resultMin = S` and
`resultMax = M`. -/
theorem C4_aggregator_increments :
    (∀ (c : Size → ℕ × ℕ) (l x : Size),
      bump c (contribOf (.single l)) x =
        ((c x).1 + (if x = l then 1 else 0),
         (c x).2 + (if x = l then 1 else 0))) ∧
    (∀ (c : Size → ℕ × ℕ) (a b x : Size),
      bump c (contribOf (.pair a b)) x =
        ((c x).1 + (if x = a then 1 else 0),
         (c x).2 + (if x = b then 1 else 0))) ∧
    (aggregate [.pair S M] S).1 = 1 ∧
    (aggregate [.pair S M] M).2 = 1 ∧
    weekSumMin (aggregate [.pair S M]) = 1 ∧
    weekSumMax (aggregate [.pair S M]) = 3 ∧
    computeSizing [.pair S M] = (S, M) := by
  refine ⟨fun c l x => rfl, fun c a b x => rfl, by decide, by decide, ?_, ?_, ?_⟩
  · exact weekSumMin_single S M
  · exact weekSumMax_single S M
  · show (getSizingFromNumberOfWeeks (weekSumMin (bump initCount (S, M))),
          getSizingFromNumberOfWeeks (weekSumMax (bump initCount (S, M)))) = (S, M)
    rw [weekSumMin_single, weekSumMax_single, getSizing_weight, getSizing_weight]

/-- C7: on a validated token list of length `n`, the min counters total `n`
and the max counters total `n`, and the two week sums are exactly the linear
combinations of the fixed weights with those counters as coefficients. -/
theorem C7_conservation (sizes : List SizeString) :
    (allSizes.map (fun s => (aggregate sizes s).1)).sum = sizes.length ∧
    (allSizes.map (fun s => (aggregate sizes s).2)).sum = sizes.length ∧
    weekSumMin (aggregate sizes) =
      (allSizes.map (fun s => ((aggregate sizes s).1 : ℚ) * sizingToWeeks s)).sum ∧
    weekSumMax (aggregate sizes) =
      (allSizes.map (fun s => ((aggregate sizes s).2 : ℚ) * sizingToWeeks s)).sum := by
  refine ⟨?_, ?_, rfl, rfl⟩
  · rw [aggregate, sum_foldl_min]
    simp [initCount, allSizes]
  · rw [aggregate, sum_foldl_max]
    simp [initCount, allSizes]

/-- C8: the pair contribution is a positional pass-through: on the single
input token `XL/XS`, the first (larger) label feeds the min sum (14) and the
second (smaller) label feeds the max sum (3/5), so the pipeline returns
`resultMin = XL` and `resultMax = XS`, whose weights are out of order. -/
theorem C8_positional_passthrough :
    handleSetSignal "XL/XS".toList = some (XL, XS) ∧
    weekSumMin (aggregate [.pair XL XS]) = 14 ∧
    weekSumMax (aggregate [.pair XL XS]) = 3/5 ∧
    sizingToWeeks XS < sizingToWeeks XL := by
  have hval : (tokenize "XL/XS".toList).all isValidToken = true := by decide
  have hmap : (tokenize "XL/XS".toList).mapM parseToken =
      some [SizeString.pair XL XS] := by decide
  have hcs : computeSizing [SizeString.pair XL XS] = (XL, XS) := by
    show (getSizingFromNumberOfWeeks (weekSumMin (bump initCount (XL, XS))),
          getSizingFromNumberOfWeeks (weekSumMax (bump initCount (XL, XS)))) = (XL, XS)
    rw [weekSumMin_single, weekSumMax_single, getSizing_weight, getSizing_weight]
  refine ⟨?_, weekSumMin_single XL XS, weekSumMax_single XL XS, by norm_num [sizingToWeeks]⟩
  simp only [handleSetSignal, hval, if_true, hmap, Option.map_some', hcs]

/-- Splitting a list that does not contain the separator yields the one-field
list, as `str.split(sep)` does on a separator-free string. -/
lemma splitOnChar_no_sep (sep : Char) :
    ∀ l : List Char, sep ∉ l → splitOnChar sep l = [l] := by
  intro l
  induction l with
  | nil => intro _; rfl
  | cons c rest ih =>
    intro h
    have hc : ¬ c = sep := fun e => h (by rw [e]; exact List.mem_cons_self _ _)
    have hr : sep ∉ rest := fun m => h (List.mem_cons_of_mem _ m)
    simp only [splitOnChar, if_neg hc, ih hr]

/-- The split of a string always yields at least one field. -/
lemma splitOnChar_ne_nil (sep : Char) :
    ∀ l : List Char, splitOnChar sep l ≠ [] := by
  intro l
  induction l with
  | nil => simp [splitOnChar]
  | cons c rest ih =>
    by_cases hc : c = sep
    · simp [splitOnChar, hc]
    · simp only [splitOnChar, if_neg hc]
      cases hsp : splitOnChar sep rest with
      | nil => exact absurd hsp ih
      | cons t ts => simp

/-- When the separator occurs, `str.split(sep)` yields at least two fields. -/
lemma two_le_splitOnChar (sep : Char) :
    ∀ l : List Char, sep ∈ l → 2 ≤ (splitOnChar sep l).length := by
  intro l
  induction l with
  | nil => intro h; cases h
  | cons c rest ih =>
    intro h
    by_cases hc : c = sep
    · have h1 : splitOnChar sep rest ≠ [] := splitOnChar_ne_nil sep rest
      have h2 : 1 ≤ (splitOnChar sep rest).length := by
        cases hsp : splitOnChar sep rest with
        | nil => exact absurd hsp h1
        | cons t ts => simp
      simp only [splitOnChar, if_pos hc, List.length_cons]
      omega
    · have hm : sep ∈ rest := by
        rcases List.mem_cons.mp h with h' | h'
        · exact absurd h'.symm hc
        · exact h'
      have h2 := ih hm
      simp only [splitOnChar, if_neg hc]
      cases hsp : splitOnChar sep rest with
      | nil => exact absurd hsp (splitOnChar_ne_nil sep rest)
      | cons t ts =>
        rw [hsp] at h2
        simpa using h2

/-- None of the six label strings contains a '/'. -/
lemma isLabel_no_slash (t : List Char) (h : isLabel t = true) : '/' ∉ t := by
  unfold isLabel parseSize at h
  split_ifs at h with h1 h2 h3 h4 h5 h6
  · subst h1; decide
  · subst h2; decide
  · subst h3; decide
  · subst h4; decide
  · subst h5; decide
  · subst h6; decide
  · simp at h

/-- What the source's validation actually tests: the first disjunct
(`Object.keys(...).includes(size)`) is subsumed by the second, so a token is
accepted exactly when every one of its '/'-separated parts is a label. -/
lemma isValidToken_eq (t : List Char) :
    isValidToken t = (splitOnChar '/' t).all isLabel := by
  unfold isValidToken
  cases hl : isLabel t
  · simp
  · rw [splitOnChar_no_sep '/' t (isLabel_no_slash t hl)]
    simp [hl]

/-- On a validated token the `as Size` casts of `computeSizing` succeed. -/
lemma parseToken_isSome_of_valid (t : List Char) (h : isValidToken t = true) :
    (parseToken t).isSome = true := by
  have hall : (splitOnChar '/' t).all isLabel = true := by
    rw [← isValidToken_eq]; exact h
  by_cases hs : '/' ∈ t
  · have hlen := two_le_splitOnChar '/' t hs
    have m0 : (splitOnChar '/' t).getD 0 [] ∈ splitOnChar '/' t := by
      rw [List.getD_eq_getElem _ _ (by omega)]
      exact List.getElem_mem _
    have m1 : (splitOnChar '/' t).getD 1 [] ∈ splitOnChar '/' t := by
      rw [List.getD_eq_getElem _ _ (by omega)]
      exact List.getElem_mem _
    have l0 := List.all_eq_true.mp hall _ m0
    have l1 := List.all_eq_true.mp hall _ m1
    unfold isLabel at l0 l1
    rcases Option.isSome_iff_exists.mp l0 with ⟨a, ha⟩
    rcases Option.isSome_iff_exists.mp l1 with ⟨b, hb⟩
    unfold parseToken
    rw [if_pos hs]
    show (match parseSize ((splitOnChar '/' t).getD 0 []),
            parseSize ((splitOnChar '/' t).getD 1 []) with
          | some a, some b => some (SizeString.pair a b)
          | _, _ => none).isSome = true
    rw [ha, hb]
    rfl
  · rw [splitOnChar_no_sep '/' t hs] at hall
    simp only [List.all_cons, List.all_nil, Bool.and_true] at hall
    unfold isLabel at hall
    rcases Option.isSome_iff_exists.mp hall with ⟨a, ha⟩
    simp [parseToken, if_neg hs, ha]

/-- On a fully validated token list the read-back of the whole list
succeeds, so the success path of `handleSetSignal` produces a result. -/
lemma mapM_parseToken_isSome :
    ∀ ts : List (List Char), ts.all isValidToken = true →
      (ts.mapM parseToken).isSome = true := by
  intro ts
  induction ts with
  | nil => intro _; rfl
  | cons t ts ih =>
    intro h
    rw [List.all_cons, Bool.and_eq_true] at h
    rcases Option.isSome_iff_exists.mp (parseToken_isSome_of_valid t h.1) with ⟨a, ha⟩
    rcases Option.isSome_iff_exists.mp (ih h.2) with ⟨as, has⟩
    simp only [List.mapM_cons]
    rw [ha, has]
    rfl

/-- C1 refuted as stated: the token `XS/S/M` is neither a bare label nor a
one-'/' pair of labels, yet the source's validation accepts it (every
'/'-separated part is a label), and the input is aggregated (only the first
two parts contribute), not rejected. -/
theorem C1_counterexample :
    specValidToken "XS/S/M".toList = false ∧
    isValidToken "XS/S/M".toList = true ∧
    handleSetSignal "XS/S/M".toList = some (XS, S) := by
  have hval : (tokenize "XS/S/M".toList).all isValidToken = true := by decide
  have hmap : (tokenize "XS/S/M".toList).mapM parseToken =
      some [SizeString.pair XS S] := by decide
  have hcs : computeSizing [SizeString.pair XS S] = (XS, S) := by
    show (getSizingFromNumberOfWeeks (weekSumMin (bump initCount (XS, S))),
          getSizingFromNumberOfWeeks (weekSumMax (bump initCount (XS, S)))) = (XS, S)
    rw [weekSumMin_single, weekSumMax_single, getSizing_weight, getSizing_weight]
  refine ⟨by decide, by decide, ?_⟩
  simp only [handleSetSignal, hval, if_true, hmap, Option.map_some', hcs]

/-- C1 amended: a token passes validation exactly when every one of its
'/'-separated parts is a Label symbol (one slash with labelled sides, a bare
label, or several slashes with all parts labelled), and the whole input is
aggregated exactly when every candidate token passes; otherwise it is
rejected with the `Invalid formatting` error. -/
theorem C1_validation_allornothing :
    (∀ t : List Char, isValidToken t = (splitOnChar '/' t).all isLabel) ∧
    ∀ value : List Char,
      (handleSetSignal value).isSome = (tokenize value).all isValidToken := by
  refine ⟨fun t => isValidToken_eq t, fun value => ?_⟩
  cases hv : (tokenize value).all isValidToken
  · simp [handleSetSignal, hv]
  · simp only [handleSetSignal, hv, if_true, Option.isSome_map']
    exact mapM_parseToken_isSome _ hv

/-- A run of `n` spaces collapses to `⌈n/2⌉` spaces in one pass. -/
lemma collapse_replicate :
    ∀ n : ℕ, collapseDoubleSpace (List.replicate n ' ') =
      List.replicate ((n + 1) / 2) ' '
  | 0 => rfl
  | 1 => rfl
  | (n + 2) => by
    show ' ' :: collapseDoubleSpace (List.replicate n ' ') = _
    rw [collapse_replicate n]
    have h : (n + 2 + 1) / 2 = (n + 1) / 2 + 1 := by omega
    rw [h, List.replicate_succ]

/-- C2 refuted as stated: on `"XS   S"` (three spaces) the single
`replaceAll('  ', ' ')` pass leaves two consecutive spaces, so the candidate
token list contains an empty token and the whole input is rejected. -/
theorem C2_counterexample :
    tokenize "XS   S".toList = ["XS".toList, [], "S".toList] ∧
    [] ∈ tokenize "XS   S".toList ∧
    handleSetSignal "XS   S".toList = none := by
  refine ⟨by decide, by decide, by decide⟩

/-- C2 amended: the tokenizer replaces commas by spaces and then makes one
left-to-right pass replacing each non-overlapping pair of consecutive spaces
by a single space, so a run of `n` separators becomes `⌈n/2⌉` spaces: runs of
one or two separators produce no empty token, longer runs do. -/
theorem C2_single_pass :
    (∀ n : ℕ, collapseDoubleSpace (List.replicate n ' ') =
      List.replicate ((n + 1) / 2) ' ') ∧
    tokenize "XS  S".toList = ["XS".toList, "S".toList] ∧
    tokenize "XS, S".toList = ["XS".toList, "S".toList] ∧
    tokenize "XS,S M".toList = ["XS".toList, "S".toList, "M".toList] :=
  ⟨collapse_replicate, by decide, by decide, by decide⟩

/-- Collapsing a list of spaces yields a list of spaces. -/
lemma collapse_all_space (l : List Char) (h : ∀ c ∈ l, c = ' ') :
    ∀ c ∈ collapseDoubleSpace l, c = ' ' := by
  have hl : l = List.replicate l.length ' ' := List.eq_replicate_length.mpr h
  rw [hl, collapse_replicate]
  intro c hc
  exact List.eq_of_mem_replicate hc

/-- Trimming an all-space string yields the empty string. -/
lemma trimWs_all_space (l : List Char) (h : ∀ c ∈ l, c = ' ') : trimWs l = [] := by
  have h1 : l.dropWhile Char.isWhitespace = [] :=
    List.dropWhile_eq_nil_iff.mpr (fun x hx => by rw [h x hx]; decide)
  rw [trimWs, h1]
  rfl

/-- C5: an input made only of spaces and commas (in particular the empty
input) is rejected with the `Invalid formatting` error and produces no
result. -/
theorem C5_separator_only (value : List Char)
    (h : ∀ c ∈ value, c = ' ' ∨ c = ',') :
    handleSetSignal value = none := by
  have h1 : ∀ c ∈ replaceCommas value, c = ' ' := by
    intro c hc
    rcases List.mem_map.mp hc with ⟨a, ha, rfl⟩
    rcases h a ha with h' | h' <;> simp [h']
  have h3 : trimWs (collapseDoubleSpace (replaceCommas value)) = [] :=
    trimWs_all_space _ (collapse_all_space _ h1)
  have h4 : tokenize value = [[]] := by
    rw [tokenize, h3]
    rfl
  have h5 : (tokenize value).all isValidToken = false := by
    rw [h4]
    decide
  simp [handleSetSignal, h5]

/-- Witness for C5 at the concrete input `" ,"`. -/
theorem C5_separator_only_witness : handleSetSignal " ,".toList = none :=
  C5_separator_only " ,".toList (by decide)
